import Mathlib

set_option maxRecDepth 8000

namespace Userbot

/-! Shallow embedding of src/manager.py, the command-dispatch and
handler-lifecycle core of the userbot.

The Telegram client's live handler subscriptions are modelled as a
duplicate-free list of numeric handler identifiers (the spec treats
subscribe/unsubscribe as idempotent operations on the event stream).
Each registry entry carries its identifier and its optional name.
The status map (an OrderedDict in the source) is an insertion-ordered
association list.  Store writes are modelled as an append-only log of
(key, record) pairs, so that persistence behaviour is observable. -/

/-- ASCII fragment of the whitespace class of the patterns built in
NewMessage (manager.py lines 36 and 38). -/
def isSpace (c : Char) : Bool :=
  c == ' ' || c == '\t' || c == '\n' || c == '\r' || c == '\x0b' || c == '\x0c'

/-- The two trigger prefixes of the command patterns. -/
def trigger (c : Char) : Bool :=
  c == '>' || c == '-'

/-- No newline occurs in the list (a dot in the patterns never matches a
newline). -/
def noNL (l : List Char) : Bool :=
  l.all (fun c => c != '\n')

/-- Where the dollar anchor may close the pattern: at the very end of the
text, or just before a single final newline. -/
def lineEnd (l : List Char) : Bool :=
  noNL l || (noNL l.dropLast && (l.getLast? == some '\n'))

/-- Tail of the command group of the pattern on line 36:
the optional group of a whitespace run, a dotted run and the anchor. -/
def tailMatch (suffix : List Char) : Bool :=
  suffix.isEmpty || (!(suffix.takeWhile isSpace).isEmpty && lineEnd (suffix.dropWhile isSpace))

/-- The command-alternation group of the pattern on line 36, tried against
the text after the trigger prefix and leading whitespace.  Commands are
injected into the pattern verbatim, so this embedding is adequate for
plain command tokens (nonempty, without whitespace or metacharacters),
which is what the program registers. -/
def groupMatch (cmds : List String) (rem : List Char) : Bool :=
  cmds.any (fun c => c.data.isPrefixOf rem && tailMatch (rem.drop c.data.length))

/-- The matcher of NewMessage for a nonempty cmd specification
(manager.py lines 35-36): the compiled pattern matched at the start of the
message text. -/
def cmdMatch (cmds : List String) (text : List Char) : Bool :=
  match text with
  | [] => false
  | c :: rest => trigger c && groupMatch cmds (rest.dropWhile isSpace)

/-- The matcher of NewMessage for the empty cmd specification
(manager.py line 38), used by the catch-all help handler. -/
def emptyCmdMatch (text : List Char) : Bool :=
  match text with
  | [] => false
  | c :: rest => trigger c && lineEnd (rest.dropWhile isSpace)

/-- Python str.split() on a token list: split on whitespace runs, dropping
empty pieces (manager.py line 48, tokens = match[1].split()). -/
def pySplitAux : List Char → List Char → List (List Char)
  | cur, [] => if cur.isEmpty then [] else [cur.reverse]
  | cur, c :: rest =>
    if isSpace c then
      (if cur.isEmpty then pySplitAux [] rest else cur.reverse :: pySplitAux [] rest)
    else pySplitAux (c :: cur) rest

/-- Python str.split() with no separator argument. -/
def pySplit (s : List Char) : List (List Char) :=
  pySplitAux [] s

/-- Modelled from the spec: MergeAction of argparse_extra, which is not
under src/.  The spec says a merge argument consumes and concatenates all
remaining tokens into a single string value; the tokens it receives come
from str.split() in NewMessage.filter, so the only separator information
available is the token boundary, joined with a single space. -/
def mergeValue : List (List Char) → List Char
  | [] => []
  | [t] => t
  | t :: rest => t ++ (' ' :: mergeValue rest)

/-- One registry entry: the callback/matcher pair is identified by a
numeric id, together with the matcher's resolved name
(explicit name, or first command token, or none). -/
structure Entry where
  id : Nat
  name : Option String
deriving DecidableEq, Repr

/-- Status map operations (handlers_statuses, an OrderedDict). -/
def lookupStatus (st : List (String × Bool)) (n : String) : Option Bool :=
  match st.find? (fun p => p.1 == n) with
  | some p => some p.2
  | none => none

/-- Key membership in the status map. -/
def hasKey (st : List (String × Bool)) (n : String) : Bool :=
  st.any (fun p => p.1 == n)

/-- In-place value update of an existing key (dict assignment on a present
key keeps the insertion position). -/
def setEntry : List (String × Bool) → String → Bool → List (String × Bool)
  | [], _, _ => []
  | p :: rest, n, v => (if p.1 == n then (p.1, v) else p) :: setEntry rest n v

/-- Manager.set_status (lines 89-91): a falsy name (None or the empty
string) is skipped; otherwise dict assignment: update in place if the key
exists, else append. -/
def set_status (st : List (String × Bool)) (name : Option String) (v : Bool) : List (String × Bool) :=
  match name with
  | none => st
  | some n =>
    if n == "" then st
    else if hasKey st n then setEntry st n v else st ++ [(n, v)]

/-- Truthiness of handlers_statuses.get(e.name) (line 175): missing keys
and the unnamed case give a falsy value. -/
def statusOf (st : List (String × Bool)) (name : Option String) : Bool :=
  match name with
  | none => false
  | some n => (lookupStatus st n).getD false

/-- client.add_event_handler, on the duplicate-free subscription model. -/
def addEH (subs : List Nat) (i : Nat) : List Nat :=
  if subs.contains i then subs else subs ++ [i]

/-- client.remove_event_handler. -/
def removeEH (subs : List Nat) (i : Nat) : List Nat :=
  subs.filter (fun j => j != i)

/-- The manager state: the handler registry (self.handlers), the global
toggle (self.turn_on), the status map (self.handlers_statuses), the live
subscription list of the client, and the log of store writes. -/
structure MState where
  registry : List Entry
  turn_on : Bool
  statuses : List (String × Bool)
  subscribed : List Nat
  writes : List (String × Bool × List (String × Bool))
deriving DecidableEq

/-- The persisted JSON record: both fields optional, since
data.get uses defaults (lines 103-104). -/
structure PRecord where
  turn_on : Option Bool
  statuses : Option (List (String × Bool))
deriving DecidableEq

/-- Manager.redis_key_data (lines 77-79). -/
def redis_key_data (userKey : String) : String :=
  "data:" ++ userKey

/-- Manager.save_data (lines 81-87): one write of the current record to
the store, under the per-operator key. -/
def save_data (userKey : String) (s : MState) : MState :=
  { s with writes := s.writes ++ [(redis_key_data userKey, s.turn_on, s.statuses)] }

/-- Loop body of Manager.register_handlers (lines 165-177), threading the
status map and the subscription list through the registry in order. -/
def registerAux (upd : Bool) : List Entry → List (String × Bool) → List Nat → List (String × Bool) × List Nat
  | [], st, subs => (st, subs)
  | e :: rest, st, subs =>
    if upd then registerAux upd rest (set_status st e.name true) (addEH subs e.id)
    else if statusOf st e.name then registerAux upd rest st (addEH subs e.id)
    else registerAux upd rest st subs

/-- Manager.register_handlers (lines 165-177). -/
def register_handlers (s : MState) (upd : Bool) : MState :=
  let p := registerAux upd s.registry s.statuses s.subscribed
  { s with statuses := p.1, subscribed := p.2 }

/-- Loop body of Manager.remove_handlers (lines 179-183). -/
def removeAux (upd : Bool) : List Entry → List (String × Bool) → List Nat → List (String × Bool) × List Nat
  | [], st, subs => (st, subs)
  | e :: rest, st, subs =>
    removeAux upd rest (if upd then set_status st e.name false else st) (removeEH subs e.id)

/-- Manager.remove_handlers (lines 179-183). -/
def remove_handlers (s : MState) (upd : Bool) : MState :=
  let p := removeAux upd s.registry s.statuses s.subscribed
  { s with statuses := p.1, subscribed := p.2 }

/-- Dispatch result of a handler invocation, per the design note of the
spec: raising StopPropagation is the handled-stop outcome. -/
inductive DispatchOutcome
  | cont
  | handledStop
deriving DecidableEq, Repr

/-- Reply reported by the per-handler toggle command. -/
inductive ToggleReply
  | started
  | stopped
  | notFound
deriving DecidableEq, Repr

/-- Manager.handle_toggle (lines 190-198): flip the global toggle, then
re-register (statuses untouched) or remove (statuses untouched) every
registry handler; always ends by raising StopPropagation. -/
def handle_toggle (s : MState) : MState × DispatchOutcome :=
  let s1 : MState := { s with turn_on := !s.turn_on }
  (if s1.turn_on then register_handlers s1 false else remove_handlers s1 false, .handledStop)

/-- Manager.handle_toggle_command (lines 200-216): linear search of the
registry for the first entry with the given name; on a hit, subscribe or
unsubscribe it and record its status; otherwise report not-found and
mutate nothing.  Always raises StopPropagation. -/
def handle_toggle_command (s : MState) (handler_name : String) (adding : Bool) :
    MState × ToggleReply × DispatchOutcome :=
  match s.registry.find? (fun e => e.name == some handler_name) with
  | some e =>
    ({ s with
        subscribed := if adding then addEH s.subscribed e.id else removeEH s.subscribed e.id,
        statuses := set_status s.statuses e.name adding },
     (if adding then ToggleReply.started else ToggleReply.stopped), .handledStop)
  | none => (s, ToggleReply.notFound, .handledStop)

/-- Manager.handle_stop_command (lines 218-219). -/
def handle_stop_command (s : MState) (n : String) : MState × ToggleReply × DispatchOutcome :=
  handle_toggle_command s n false

/-- Manager.handle_start_command (lines 221-222). -/
def handle_start_command (s : MState) (n : String) : MState × ToggleReply × DispatchOutcome :=
  handle_toggle_command s n true

/-- Manager.handle_status (lines 224-231): renders the status listing and
responds; it does not raise StopPropagation and mutates nothing. -/
def handle_status (s : MState) : MState × DispatchOutcome :=
  (s, .cont)

/-- Manager.update_turn_on_from_store (lines 106-109). -/
def update_turn_on_from_store (s : MState) (v : Bool) : MState :=
  let s1 : MState := { s with turn_on := v }
  if v then s1 else remove_handlers s1 false

/-- handlers_map lookup of lines 115 and 119: a dict comprehension over
the registry, so the last entry with a given name wins. -/
def lastNamed (reg : List Entry) (n : String) : Option Entry :=
  (reg.filter (fun e => e.name == some n)).getLast?

/-- Loop body of Manager.update_statuses_from_store (lines 111-121): a
remembered status is applied only when its name is a key of the current
status map and names some registry entry; a false value unsubscribes the
handlers_map entry of that name. -/
def updStatusesAux (reg : List Entry) : List (String × Bool) → List (String × Bool) → List Nat → List (String × Bool) × List Nat
  | [], st, subs => (st, subs)
  | (n, v) :: rest, st, subs =>
    if hasKey st n && reg.any (fun e => e.name == some n) then
      updStatusesAux reg rest (setEntry st n v)
        (if v then subs
         else
           match lastNamed reg n with
           | some e => removeEH subs e.id
           | none => subs)
    else updStatusesAux reg rest st subs

/-- Manager.update_statuses_from_store (lines 111-121). -/
def update_statuses_from_store (s : MState) (sts : List (String × Bool)) : MState :=
  let p := updStatusesAux s.registry sts s.statuses s.subscribed
  { s with statuses := p.1, subscribed := p.2 }

/-- Manager.update_from_store (lines 97-104): none models absent (or
falsy) persisted data, in which case nothing is applied; otherwise the
global flag (default true) is applied first, then the remembered
statuses (default empty). -/
def update_from_store (s : MState) (data : Option PRecord) : MState :=
  match data with
  | none => s
  | some d =>
    update_statuses_from_store (update_turn_on_from_store s (d.turn_on.getD true)) (d.statuses.getD [])

/-- The registry built by setup_handlers (lines 234-347), in registration
order.  The catch-all help handler (cmd equal to the empty string) has no
name; the nou command block registers first the handle_nou matcher (added
inside the with-block, before the context manager appends the command
entry) and then the handle_noop command entry, both named nou. -/
def theRegistry : List Entry :=
  [⟨0, none⟩,
   ⟨1, some ("nou")⟩,
   ⟨2, some ("nou")⟩,
   ⟨3, some ("hello")⟩,
   ⟨4, some ("eval")⟩,
   ⟨5, some ("sed")⟩,
   ⟨6, some ("timer")⟩,
   ⟨7, some ("google")⟩,
   ⟨8, some ("moon")⟩,
   ⟨9, some ("marquee")⟩,
   ⟨10, some ("highlight")⟩,
   ⟨11, some ("rotate")⟩,
   ⟨12, some ("loop_desc")⟩,
   ⟨13, some ("loop_name")⟩,
   ⟨14, some ("logs")⟩]

/-- Ids of the four control-command handlers, registered with
registry=False (toggle, status, stop_command, start_command): they are
attached directly to the client during setup and never enter the
registry. -/
def controlIds : List Nat :=
  [20, 21, 22, 23]

/-- Names and aliases of the four control commands. -/
def controlNames : List String :=
  [("toggle"), ("to"), ("status"), ("stop_command"), ("stop"), ("start_command"), ("start")]

/-- Cold start for an arbitrary registry: the fresh manager state
(turn_on true, empty status map, the non-registry control handlers
already subscribed), then register_handlers(update_statuses=True), then
update_from_store — the tail of setup_handlers (lines 349-350). -/
def initFrom (reg : List Entry) (preSubs : List Nat) (data : Option PRecord) : MState :=
  let s0 : MState :=
    { registry := reg, turn_on := true, statuses := [], subscribed := preSubs, writes := [] }
  update_from_store (register_handlers s0 true) data

/-- setup_handlers (lines 234-351) as a state: the concrete registry and
control handlers, cold-started against the given persisted record. -/
def setup_handlers (data : Option PRecord) : MState :=
  initFrom theRegistry controlIds data

/-- One observable operation of the running manager. -/
inductive Step : MState → MState → Prop
  | toggle (s : MState) : Step s (handle_toggle s).1
  | toggleCmd (s : MState) (n : String) (a : Bool) : Step s (handle_toggle_command s n a).1
  | statusCmd (s : MState) : Step s (handle_status s).1
  | save (s : MState) (uk : String) : Step s (save_data uk s)

/-- States reachable by the program: a cold start against some persisted
record, followed by any sequence of operations. -/
inductive Reachable : MState → Prop
  | init (data : Option PRecord) : Reachable (setup_handlers data)
  | step {s t : MState} : Reachable s → Step s t → Reachable t

/-- The global flag recorded in a persisted record, with the defaults of
update_from_store. -/
def effTurnOn (data : Option PRecord) : Bool :=
  match data with
  | none => true
  | some d => d.turn_on.getD true

/-- The remembered statuses of a persisted record, with defaults. -/
def persistedStatuses (data : Option PRecord) : List (String × Bool) :=
  match data with
  | none => []
  | some d => d.statuses.getD []

/-- The enabled/disabled state a cold start should leave a registry entry
in: the remembered value for its name if the record has one, else
enabled; unnamed entries have no remembered state. -/
def entryRemembered (data : Option PRecord) (e : Entry) : Bool :=
  match e.name with
  | none => true
  | some n => (lookupStatus (persistedStatuses data) n).getD true

/-- One persisted status entry p causes handler id i to be unsubscribed
during the status-restore loop: p remembers false, passes the guard of
the loop (its key is in the status map st and names a registry entry),
and the handlers_map lookup (last registry entry of that name) has id
i. -/
def removesId (reg : List Entry) (st : List (String × Bool)) (p : String × Bool) (i : Nat) :
    Prop :=
  p.2 = false ∧ (hasKey st p.1 && reg.any (fun e => e.name == some p.1)) = true ∧
  ∃ e : Entry, lastNamed reg p.1 = some e ∧ e.id = i

/-- The inductive invariant behind C10: the registry is always the one
built at setup, every status map key names a registry entry, and the four
control handlers stay subscribed. -/
def ControlInv (s : MState) : Prop :=
  s.registry = theRegistry ∧
  (∀ k : String, hasKey s.statuses k = true → ∃ e ∈ theRegistry, e.name = some k) ∧
  (∀ i ∈ controlIds, i ∈ s.subscribed)

/-! ### Helper lemmas about the primitive operations -/

theorem mem_addEH {subs : List Nat} {i j : Nat} : j ∈ addEH subs i ↔ j ∈ subs ∨ j = i := by
  by_cases h : subs.contains i = true
  · have hi : i ∈ subs := List.elem_iff.mp h
    simp only [addEH, h, if_pos]
    constructor
    · exact Or.inl
    · rintro (hj | rfl)
      · exact hj
      · exact hi
  · simp only [addEH, h, if_neg, Bool.false_eq_true, not_false_eq_true, List.mem_append,
      List.mem_singleton]

theorem mem_removeEH {subs : List Nat} {i j : Nat} : j ∈ removeEH subs i ↔ j ∈ subs ∧ j ≠ i := by
  simp [removeEH, List.mem_filter]

theorem hasKey_nil (m : String) : hasKey [] m = false := rfl

theorem hasKey_cons (p : String × Bool) (rest : List (String × Bool)) (m : String) :
    hasKey (p :: rest) m = (p.1 == m || hasKey rest m) := rfl

theorem lookupStatus_cons (p : String × Bool) (rest : List (String × Bool)) (m : String) :
    lookupStatus (p :: rest) m = if p.1 == m then some p.2 else lookupStatus rest m := by
  by_cases h : (p.1 == m) = true <;> simp [lookupStatus, List.find?_cons, h]

theorem lookupStatus_append (st l2 : List (String × Bool)) (m : String) :
    lookupStatus (st ++ l2) m =
      match lookupStatus st m with
      | some w => some w
      | none => lookupStatus l2 m := by
  induction st with
  | nil => rfl
  | cons p rest ih =>
    by_cases h : p.1 == m
    · simp [lookupStatus, List.find?_cons, h]
    · simpa [lookupStatus, List.find?_cons, h] using ih

theorem hasKey_eq_isSome (st : List (String × Bool)) (n : String) :
    hasKey st n = (lookupStatus st n).isSome := by
  induction st with
  | nil => rfl
  | cons p rest ih =>
    by_cases h : p.1 == n
    · simp [hasKey, lookupStatus, List.find?_cons, h]
    · simpa [hasKey, lookupStatus, List.find?_cons, h] using ih

theorem lookupStatus_setEntry_self {st : List (String × Bool)} {n : String} (v : Bool)
    (h : hasKey st n = true) : lookupStatus (setEntry st n v) n = some v := by
  induction st with
  | nil => simp [hasKey] at h
  | cons p rest ih =>
    by_cases hp : (p.1 == n) = true
    · rw [setEntry, if_pos hp, lookupStatus_cons]
      simp [hp]
    · rw [setEntry, if_neg hp, lookupStatus_cons, if_neg (by simpa using hp)]
      have hk : hasKey rest n = true := by
        rw [hasKey_cons] at h
        simpa [hp] using h
      exact ih hk

theorem lookupStatus_setEntry_other {st : List (String × Bool)} {n m : String} (v : Bool)
    (h : m ≠ n) : lookupStatus (setEntry st n v) m = lookupStatus st m := by
  induction st with
  | nil => rfl
  | cons p rest ih =>
    by_cases hp : (p.1 == n) = true
    · have hp1 : p.1 = n := eq_of_beq hp
      have hpm : (p.1 == m) = false := by
        rw [hp1]
        exact beq_eq_false_iff_ne.mpr (Ne.symm h)
      rw [setEntry, if_pos hp, lookupStatus_cons, lookupStatus_cons]
      simp only [hpm]
      rw [if_neg (by simp), if_neg (by simp)]
      exact ih
    · rw [setEntry, if_neg hp, lookupStatus_cons, lookupStatus_cons]
      by_cases hm : (p.1 == m) = true
      · rw [if_pos hm, if_pos hm]
      · rw [if_neg hm, if_neg hm]
        exact ih

theorem hasKey_setEntry (st : List (String × Bool)) (n m : String) (v : Bool) :
    hasKey (setEntry st n v) m = hasKey st m := by
  induction st with
  | nil => rfl
  | cons p rest ih =>
    by_cases hp : (p.1 == n) = true
    · rw [setEntry, if_pos hp, hasKey_cons, hasKey_cons, ih]
    · rw [setEntry, if_neg hp, hasKey_cons, hasKey_cons, ih]

theorem lookupStatus_none_of_hasKey_false {st : List (String × Bool)} {n : String}
    (hk : ¬ hasKey st n = true) : lookupStatus st n = none := by
  cases hcase : lookupStatus st n with
  | none => rfl
  | some w =>
    exact absurd (by rw [hasKey_eq_isSome, hcase]; rfl) hk

theorem lookupStatus_set_status_self {st : List (String × Bool)} {n : String} (v : Bool)
    (hn : n ≠ "") : lookupStatus (set_status st (some n) v) n = some v := by
  have hbe : (n == "") = false := by simpa using hn
  by_cases hk : hasKey st n = true
  · simp [set_status, hbe, hk, lookupStatus_setEntry_self v hk]
  · simp only [set_status, hbe, Bool.false_eq_true, if_false, hk, if_neg, not_false_eq_true]
    rw [lookupStatus_append, lookupStatus_none_of_hasKey_false hk]
    simp [lookupStatus_cons]

theorem lookupStatus_set_status_ne {st : List (String × Bool)} {name : Option String}
    {m : String} (v : Bool) (h : name ≠ some m) :
    lookupStatus (set_status st name v) m = lookupStatus st m := by
  match name with
  | none => rfl
  | some n =>
    have hnm : m ≠ n := fun hc => h (by rw [hc])
    by_cases he : (n == "") = true
    · simp [set_status, he]
    · by_cases hk : hasKey st n = true
      · simp [set_status, he, hk, lookupStatus_setEntry_other v hnm]
      · simp only [set_status, he, Bool.false_eq_true, if_false, hk, if_neg, not_false_eq_true]
        rw [lookupStatus_append]
        have hone : lookupStatus [(n, v)] m = none := by
          rw [lookupStatus_cons, if_neg]
          · rfl
          · simp
            exact Ne.symm hnm
        rw [hone]
        cases lookupStatus st m <;> rfl

theorem registerAux_false_statuses (reg : List Entry) (st : List (String × Bool))
    (subs : List Nat) : (registerAux false reg st subs).1 = st := by
  induction reg generalizing subs with
  | nil => rfl
  | cons e rest ih =>
    by_cases h : statusOf st e.name = true <;> simp [registerAux, h, ih]

theorem mem_registerAux_false (reg : List Entry) (st : List (String × Bool)) (subs : List Nat)
    (i : Nat) : i ∈ (registerAux false reg st subs).2 ↔
      i ∈ subs ∨ ∃ e ∈ reg, e.id = i ∧ statusOf st e.name = true := by
  induction reg generalizing subs with
  | nil => simp [registerAux]
  | cons e rest ih =>
    by_cases h : statusOf st e.name = true
    · simp only [registerAux, h, if_true, Bool.false_eq_true, if_false, ih, mem_addEH,
        List.exists_mem_cons_iff, and_true, eq_comm]
      tauto
    · simp only [registerAux, h, Bool.false_eq_true, if_false, ih,
        List.exists_mem_cons_iff, and_false, false_or, eq_comm]

theorem mem_registerAux_true (reg : List Entry) (st : List (String × Bool)) (subs : List Nat)
    (i : Nat) : i ∈ (registerAux true reg st subs).2 ↔ i ∈ subs ∨ ∃ e ∈ reg, e.id = i := by
  induction reg generalizing st subs with
  | nil => simp [registerAux]
  | cons e rest ih =>
    simp only [registerAux, if_true, ih, mem_addEH, List.exists_mem_cons_iff, eq_comm]
    tauto

theorem registerAux_true_lookup (reg : List Entry) (st : List (String × Bool)) (subs : List Nat)
    {n : String} (hn : n ≠ "") :
    lookupStatus (registerAux true reg st subs).1 n =
      if reg.any (fun e => e.name == some n) then some true else lookupStatus st n := by
  induction reg generalizing st subs with
  | nil => simp [registerAux]
  | cons e rest ih =>
    by_cases he : (e.name == some n) = true
    · have hne : e.name = some n := by simpa using he
      simp only [registerAux, if_true, List.any_cons, he, Bool.true_or, ih]
      by_cases hr : rest.any (fun e => e.name == some n) = true
      · simp [hr]
      · simp [hr, hne, lookupStatus_set_status_self true hn]
    · have hne : e.name ≠ some n := by simpa using he
      simp only [registerAux, if_true, List.any_cons, he, Bool.false_or, ih,
        lookupStatus_set_status_ne true hne]

theorem removeAux_false_statuses (reg : List Entry) (st : List (String × Bool))
    (subs : List Nat) : (removeAux false reg st subs).1 = st := by
  induction reg generalizing subs with
  | nil => rfl
  | cons e rest ih => simp [removeAux, ih]

theorem mem_removeAux (u : Bool) (reg : List Entry) (st : List (String × Bool)) (subs : List Nat)
    (i : Nat) : i ∈ (removeAux u reg st subs).2 ↔ i ∈ subs ∧ ∀ e ∈ reg, e.id ≠ i := by
  induction reg generalizing st subs with
  | nil => simp [removeAux]
  | cons e rest ih =>
    simp only [removeAux, ih, mem_removeEH, List.forall_mem_cons]
    constructor
    · rintro ⟨⟨hs, hne⟩, hall⟩
      exact ⟨hs, fun hc => hne (by rw [hc]), hall⟩
    · rintro ⟨hs, hne, hall⟩
      exact ⟨⟨hs, fun hc => hne (by rw [hc])⟩, hall⟩

theorem remove_handlers_false_statuses (s : MState) :
    (remove_handlers s false).statuses = s.statuses :=
  removeAux_false_statuses s.registry s.statuses s.subscribed

theorem register_handlers_false_statuses (s : MState) :
    (register_handlers s false).statuses = s.statuses :=
  registerAux_false_statuses s.registry s.statuses s.subscribed

theorem mem_remove_handlers (s : MState) (u : Bool) (i : Nat) :
    i ∈ (remove_handlers s u).subscribed ↔ i ∈ s.subscribed ∧ ∀ e ∈ s.registry, e.id ≠ i :=
  mem_removeAux u s.registry s.statuses s.subscribed i

theorem mem_register_handlers_false (s : MState) (i : Nat) :
    i ∈ (register_handlers s false).subscribed ↔
      i ∈ s.subscribed ∨ ∃ e ∈ s.registry, e.id = i ∧ statusOf s.statuses e.name = true :=
  mem_registerAux_false s.registry s.statuses s.subscribed i

theorem handle_toggle_of_on (s : MState) (h : s.turn_on = true) :
    (handle_toggle s).1 = remove_handlers { s with turn_on := false } false := by
  simp [handle_toggle, h]

theorem handle_toggle_of_off (s : MState) (h : s.turn_on = false) :
    (handle_toggle s).1 = register_handlers { s with turn_on := true } false := by
  simp [handle_toggle, h]

/-! ### C3: persistence writes -/

/-- C3, counterexample: from the cold-started state, performing the global
toggle writes nothing to the store (the claim says completing any toggle
operation includes a write of the current record). -/
theorem toggle_writes_counterexample :
    ¬ ((handle_toggle (setup_handlers none)).1.writes.length =
        (setup_handlers none).writes.length + 1) := by
  decide

/-- C3, amended: the persisted record is the JSON object
(turn_on, statuses) stored under the key data:operator-id, and save_data
performs exactly that write; but no toggle operation (global toggle,
per-handler start/stop) and no status query writes the store — the only
registered writer is the process-exit hook calling save_data. -/
theorem persistence_write_behaviour (s : MState) (uk n : String) (a : Bool) :
    (save_data uk s).writes = s.writes ++ [(redis_key_data uk, s.turn_on, s.statuses)] ∧
    redis_key_data uk = "data:" ++ uk ∧
    (handle_toggle s).1.writes = s.writes ∧
    (handle_toggle_command s n a).1.writes = s.writes ∧
    (handle_status s).1.writes = s.writes := by
  refine ⟨rfl, rfl, ?_, ?_, rfl⟩
  · cases hb : s.turn_on <;>
      simp [handle_toggle, hb, register_handlers, remove_handlers]
  · cases hf : s.registry.find? (fun e => e.name == some n) <;>
      simp [handle_toggle_command, hf]

/-! ### C5: toggling an unknown handler name -/

/-- C5: if no registered handler carries the requested name, the
per-handler toggle reports the distinct not-found outcome and leaves the
whole state (status map, global toggle, subscriptions, store) unchanged. -/
theorem toggle_handler_not_found (s : MState) (n : String) (a : Bool)
    (h : ∀ e ∈ s.registry, e.name ≠ some n) :
    handle_toggle_command s n a = (s, ToggleReply.notFound, DispatchOutcome.handledStop) := by
  have hf : s.registry.find? (fun e => e.name == some n) = none :=
    List.find?_eq_none.mpr (fun e he => by simpa using h e he)
  simp [handle_toggle_command, hf]

/-- C5, witness: the name toggle matches no registry entry in the
cold-started state, so toggling it mutates nothing and reports
not-found. -/
theorem toggle_handler_not_found_witness :
    (∀ e ∈ (setup_handlers none).registry, e.name ≠ some ("toggle")) ∧
    handle_toggle_command (setup_handlers none) ("toggle") true =
      (setup_handlers none, ToggleReply.notFound, DispatchOutcome.handledStop) :=
  ⟨by decide, toggle_handler_not_found (setup_handlers none) ("toggle") true (by decide)⟩

/-! ### C6: stop followed by start restores a handler -/

/-- C6: for a registered handler name X (nonempty, as all real handler
names are), toggling it off and then on leaves the handler found under X
subscribed to the event stream and its status map entry true. -/
theorem stop_then_start_restores (s : MState) (X : String) (e : Entry) (hne : X ≠ "")
    (hfind : s.registry.find? (fun x => x.name == some X) = some e) :
    e.id ∈ (handle_toggle_command (handle_toggle_command s X false).1 X true).1.subscribed ∧
    lookupStatus (handle_toggle_command (handle_toggle_command s X false).1 X true).1.statuses X
      = some true := by
  have hname : e.name = some X := by simpa using List.find?_some hfind
  simp only [handle_toggle_command, hfind, Bool.false_eq_true, if_false, if_true]
  constructor
  · exact mem_addEH.mpr (Or.inr rfl)
  · rw [hname]
    exact lookupStatus_set_status_self true hne

/-- C6, witness: stop hello then start hello from the cold-started state
leaves handler 3 subscribed with status true. -/
theorem stop_then_start_restores_witness :
    (("hello" : String) ≠ "") ∧
    ((setup_handlers none).registry.find? (fun x => x.name == some ("hello")) =
      some ⟨3, some ("hello")⟩) ∧
    ((3 : Nat) ∈
      (handle_toggle_command (handle_toggle_command (setup_handlers none) ("hello") false).1
        ("hello") true).1.subscribed ∧
    lookupStatus
      (handle_toggle_command (handle_toggle_command (setup_handlers none) ("hello") false).1
        ("hello") true).1.statuses ("hello") = some true) :=
  ⟨by decide, by decide,
    stop_then_start_restores (setup_handlers none) ("hello") ⟨3, some ("hello")⟩
      (by decide) (by decide)⟩

/-! ### C7: propagation outcomes of the control commands -/

/-- C7, counterexample: the status command does not raise StopPropagation,
so its invocation does not yield the handled-stop outcome the claim
requires of all four control commands. -/
theorem status_outcome_counterexample :
    ¬ ((handle_status (setup_handlers none)).2 = DispatchOutcome.handledStop) := by
  decide

/-- C7, amended: the toggle, stop_command and start_command handlers each
end by raising StopPropagation (handled-stop outcome), but the status
handler returns without raising, so other handlers may also react to the
same message. -/
theorem control_command_outcomes (s : MState) (n : String) :
    (handle_toggle s).2 = DispatchOutcome.handledStop ∧
    (handle_stop_command s n).2.2 = DispatchOutcome.handledStop ∧
    (handle_start_command s n).2.2 = DispatchOutcome.handledStop ∧
    (handle_status s).2 = DispatchOutcome.cont := by
  refine ⟨rfl, ?_, ?_, rfl⟩ <;>
    cases hf : s.registry.find? (fun e => e.name == some n) <;>
      simp [handle_stop_command, handle_start_command, handle_toggle_command, hf]

/-! ### C4: the global-off invariant -/

/-- C4, counterexample: a reachable state (cold start, global toggle off,
then start hello) in which the global toggle is false while registry
handler 3 is subscribed to the event stream: the claimed invariant fails,
because the per-handler enable does not check the global toggle. -/
theorem global_off_invariant_counterexample :
    Reachable ((handle_toggle_command (handle_toggle (setup_handlers none)).1 ("hello") true).1) ∧
    ((handle_toggle_command (handle_toggle (setup_handlers none)).1 ("hello") true).1.turn_on
      = false) ∧
    ((⟨3, some ("hello")⟩ : Entry) ∈
      (handle_toggle_command (handle_toggle (setup_handlers none)).1 ("hello") true).1.registry) ∧
    ((3 : Nat) ∈
      (handle_toggle_command (handle_toggle (setup_handlers none)).1 ("hello") true).1.subscribed) :=
  ⟨Reachable.step (Reachable.step (Reachable.init none) (Step.toggle _))
      (Step.toggleCmd _ ("hello") true),
    by decide, by decide, by decide⟩

/-- C4, amended: entering global off does unsubscribe every registry
handler (and leaves the status map untouched); but the invariant is not
preserved while off, since toggle_handler(name, enable=true) subscribes
the named handler while the global toggle stays false. -/
theorem global_off_unsubscribes_all (s : MState) (h : s.turn_on = true) :
    (handle_toggle s).1.turn_on = false ∧
    (handle_toggle s).1.statuses = s.statuses ∧
    ∀ e ∈ s.registry, e.id ∉ (handle_toggle s).1.subscribed := by
  have hb : (!s.turn_on) = false := by simp [h]
  refine ⟨by simp [handle_toggle, hb, remove_handlers], ?_, ?_⟩
  · simp [handle_toggle, hb, remove_handlers, removeAux_false_statuses]
  · intro e he hmem
    have := (mem_removeAux false s.registry s.statuses s.subscribed e.id).mp
      (by simpa [handle_toggle, hb, remove_handlers] using hmem)
    exact this.2 e he rfl

/-- C4, witness: from the cold-started state the global toggle turns off
and handler 3 (hello) is no longer subscribed. -/
theorem global_off_unsubscribes_all_witness :
    ((setup_handlers none).turn_on = true) ∧
    ((handle_toggle (setup_handlers none)).1.turn_on = false ∧
    (handle_toggle (setup_handlers none)).1.statuses = (setup_handlers none).statuses ∧
    ∀ e ∈ (setup_handlers none).registry,
      e.id ∉ (handle_toggle (setup_handlers none)).1.subscribed) :=
  ⟨by decide, global_off_unsubscribes_all (setup_handlers none) (by decide)⟩

/-! ### C1: the global toggle cycle -/

/-- C1, counterexample: from the cold-started state (reachable, global
on), toggling global off and back on does not restore the subscription
set: the unnamed catch-all handler (entry 0) was subscribed before the
cycle and is not subscribed after it, because re-registration only
subscribes handlers with a positive status map entry and the catch-all
has none. -/
theorem double_toggle_counterexample :
    Reachable (setup_handlers none) ∧
    (setup_handlers none).turn_on = true ∧
    ((⟨0, none⟩ : Entry) ∈ (setup_handlers none).registry) ∧
    ((0 : Nat) ∈ (setup_handlers none).subscribed) ∧
    ((0 : Nat) ∉ (handle_toggle (handle_toggle (setup_handlers none)).1).1.subscribed) :=
  ⟨Reachable.init none, by decide, by decide, by decide, by decide⟩

/-- C1, amended: toggling global off and back on (no per-handler toggles
in between) leaves the global toggle on, every status map entry unchanged
and non-registry subscriptions unchanged, and resets the subscribed
registry handlers to exactly those entries whose status map entry is
true: a subscription not backed by a true status entry — the unnamed
catch-all, or a handler sharing its name with a disabled duplicate — is
dropped rather than restored. -/
theorem double_toggle_characterization (s : MState) (h : s.turn_on = true) :
    (handle_toggle (handle_toggle s).1).1.turn_on = true ∧
    (handle_toggle (handle_toggle s).1).1.statuses = s.statuses ∧
    (handle_toggle (handle_toggle s).1).1.registry = s.registry ∧
    ∀ i : Nat, i ∈ (handle_toggle (handle_toggle s).1).1.subscribed ↔
      ((i ∈ s.subscribed ∧ ∀ e ∈ s.registry, e.id ≠ i) ∨
        ∃ e ∈ s.registry, e.id = i ∧ statusOf s.statuses e.name = true) := by
  rw [handle_toggle_of_on s h]
  rw [handle_toggle_of_off _ (rfl :
    (remove_handlers { s with turn_on := false } false).turn_on = false)]
  refine ⟨rfl, ?_, rfl, ?_⟩
  · rw [register_handlers_false_statuses]
    show (remove_handlers { s with turn_on := false } false).statuses = s.statuses
    rw [remove_handlers_false_statuses]
  · intro i
    rw [mem_register_handlers_false]
    rw [show ({ remove_handlers { s with turn_on := false } false with
        turn_on := true } : MState).statuses = s.statuses from
      remove_handlers_false_statuses { s with turn_on := false }]
    constructor
    · rintro (hm | hex)
      · exact Or.inl ((mem_remove_handlers { s with turn_on := false } false i).mp hm)
      · exact Or.inr hex
    · rintro (hm | hex)
      · exact Or.inl ((mem_remove_handlers { s with turn_on := false } false i).mpr hm)
      · exact Or.inr hex

/-- C1, amended witness: the characterization applied to the cold-started
state. -/
theorem double_toggle_characterization_witness :
    ((setup_handlers none).turn_on = true) ∧
    ((handle_toggle (handle_toggle (setup_handlers none)).1).1.turn_on = true ∧
    (handle_toggle (handle_toggle (setup_handlers none)).1).1.statuses =
      (setup_handlers none).statuses ∧
    (handle_toggle (handle_toggle (setup_handlers none)).1).1.registry =
      (setup_handlers none).registry ∧
    ∀ i : Nat, i ∈ (handle_toggle (handle_toggle (setup_handlers none)).1).1.subscribed ↔
      ((i ∈ (setup_handlers none).subscribed ∧
          ∀ e ∈ (setup_handlers none).registry, e.id ≠ i) ∨
        ∃ e ∈ (setup_handlers none).registry,
          e.id = i ∧ statusOf (setup_handlers none).statuses e.name = true)) :=
  ⟨by decide, double_toggle_characterization (setup_handlers none) (by decide)⟩

/-! ### Preservation lemmas for the reachability invariant (C10) -/

theorem hasKey_append (a b : List (String × Bool)) (k : String) :
    hasKey (a ++ b) k = (hasKey a k || hasKey b k) :=
  List.any_append

theorem hasKey_set_status {st : List (String × Bool)} {name : Option String} {v : Bool}
    {k : String} (h : hasKey (set_status st name v) k = true) :
    hasKey st k = true ∨ name = some k := by
  match name with
  | none => exact Or.inl h
  | some n =>
    by_cases he : (n == "") = true
    · simp only [set_status, he, if_true] at h
      exact Or.inl h
    · by_cases hk : hasKey st n = true
      · simp only [set_status, he, Bool.false_eq_true, if_false, hk, if_true] at h
        rw [hasKey_setEntry] at h
        exact Or.inl h
      · simp only [set_status, he, Bool.false_eq_true, if_false, hk, if_neg,
          not_false_eq_true] at h
        rw [hasKey_append, hasKey_cons, hasKey_nil] at h
        rcases Bool.or_eq_true_iff.mp h with h1 | h2
        · exact Or.inl h1
        · rcases Bool.or_eq_true_iff.mp h2 with h3 | h4
          · exact Or.inr (congrArg some (eq_of_beq h3))
          · simp at h4

theorem hasKey_registerAux {u : Bool} {reg : List Entry} {st : List (String × Bool)}
    {subs : List Nat} {k : String} (h : hasKey (registerAux u reg st subs).1 k = true) :
    hasKey st k = true ∨ ∃ e ∈ reg, e.name = some k := by
  induction reg generalizing st subs with
  | nil => exact Or.inl h
  | cons e rest ih =>
    cases u with
    | true =>
      rw [registerAux, if_pos rfl] at h
      rcases ih h with h1 | h2
      · rcases hasKey_set_status h1 with h3 | h4
        · exact Or.inl h3
        · exact Or.inr ⟨e, List.mem_cons_self e rest, h4⟩
      · obtain ⟨x, hx, hn⟩ := h2
        exact Or.inr ⟨x, List.mem_cons_of_mem e hx, hn⟩
    | false =>
      by_cases hs : statusOf st e.name = true
      · rw [registerAux, if_neg (by simp), if_pos hs] at h
        rcases ih h with h1 | h2
        · exact Or.inl h1
        · obtain ⟨x, hx, hn⟩ := h2
          exact Or.inr ⟨x, List.mem_cons_of_mem e hx, hn⟩
      · rw [registerAux, if_neg (by simp), if_neg hs] at h
        rcases ih h with h1 | h2
        · exact Or.inl h1
        · obtain ⟨x, hx, hn⟩ := h2
          exact Or.inr ⟨x, List.mem_cons_of_mem e hx, hn⟩

theorem hasKey_removeAux {u : Bool} {reg : List Entry} {st : List (String × Bool)}
    {subs : List Nat} {k : String} (h : hasKey (removeAux u reg st subs).1 k = true) :
    hasKey st k = true ∨ ∃ e ∈ reg, e.name = some k := by
  induction reg generalizing st subs with
  | nil => exact Or.inl h
  | cons e rest ih =>
    rw [removeAux] at h
    rcases ih h with h1 | h2
    · cases u with
      | true =>
        simp only [if_pos rfl] at h1
        rcases hasKey_set_status h1 with h3 | h4
        · exact Or.inl h3
        · exact Or.inr ⟨e, List.mem_cons_self e rest, h4⟩
      | false =>
        simp only [Bool.false_eq_true, if_false] at h1
        exact Or.inl h1
    · obtain ⟨x, hx, hn⟩ := h2
      exact Or.inr ⟨x, List.mem_cons_of_mem e hx, hn⟩

theorem hasKey_updStatusesAux (reg : List Entry) (sts st : List (String × Bool))
    (subs : List Nat) (k : String) :
    hasKey (updStatusesAux reg sts st subs).1 k = hasKey st k := by
  induction sts generalizing st subs with
  | nil => rfl
  | cons p rest ih =>
    obtain ⟨n, v⟩ := p
    by_cases hg : (hasKey st n && reg.any (fun e => e.name == some n)) = true
    · rw [updStatusesAux, if_pos hg, ih, hasKey_setEntry]
    · rw [updStatusesAux, if_neg hg, ih]

theorem lastNamed_mem {reg : List Entry} {n : String} {e : Entry}
    (h : lastNamed reg n = some e) : e ∈ reg ∧ e.name = some n := by
  unfold lastNamed at h
  obtain ⟨hne, heq⟩ := List.mem_getLast?_eq_getLast (Option.mem_def.mpr h)
  have hmem : e ∈ reg.filter (fun e => e.name == some n) := by
    rw [heq]
    exact List.getLast_mem hne
  obtain ⟨h1, h2⟩ := List.mem_filter.mp hmem
  exact ⟨h1, by simpa using h2⟩

theorem mem_updStatusesAux_of (reg : List Entry) (sts st : List (String × Bool))
    (subs : List Nat) (i : Nat) (hi : i ∈ subs) (hreg : ∀ e ∈ reg, e.id ≠ i) :
    i ∈ (updStatusesAux reg sts st subs).2 := by
  induction sts generalizing st subs with
  | nil => exact hi
  | cons p rest ih =>
    obtain ⟨n, v⟩ := p
    by_cases hg : (hasKey st n && reg.any (fun e => e.name == some n)) = true
    · rw [updStatusesAux, if_pos hg]
      apply ih
      cases v with
      | true => exact hi
      | false =>
        cases hl : lastNamed reg n with
        | none => simpa [hl] using hi
        | some e =>
          simp only [hl]
          exact mem_removeEH.mpr ⟨hi, fun hc => hreg e (lastNamed_mem hl).1 hc.symm⟩
    · rw [updStatusesAux, if_neg hg]
      exact ih st subs hi

theorem update_turn_on_registry (s : MState) (v : Bool) :
    (update_turn_on_from_store s v).registry = s.registry := by
  cases v <;> simp [update_turn_on_from_store, remove_handlers]

theorem update_turn_on_statuses (s : MState) (v : Bool) :
    (update_turn_on_from_store s v).statuses = s.statuses := by
  cases v with
  | false =>
    simp only [update_turn_on_from_store, Bool.false_eq_true, if_false]
    exact remove_handlers_false_statuses { s with turn_on := false }
  | true => rfl

theorem mem_update_turn_on_subscribed (s : MState) (v : Bool) (i : Nat)
    (hi : i ∈ s.subscribed) (hreg : ∀ e ∈ s.registry, e.id ≠ i) :
    i ∈ (update_turn_on_from_store s v).subscribed := by
  cases v with
  | false =>
    simp only [update_turn_on_from_store, Bool.false_eq_true, if_false]
    exact (mem_remove_handlers { s with turn_on := false } false i).mpr ⟨hi, hreg⟩
  | true => exact hi

theorem mem_handle_toggle_subscribed (s : MState) (i : Nat)
    (hi : i ∈ s.subscribed) (hreg : ∀ e ∈ s.registry, e.id ≠ i) :
    i ∈ (handle_toggle s).1.subscribed := by
  cases hb : s.turn_on with
  | false =>
    rw [handle_toggle_of_off s hb]
    exact (mem_register_handlers_false _ i).mpr (Or.inl hi)
  | true =>
    rw [handle_toggle_of_on s hb]
    exact (mem_remove_handlers _ false i).mpr ⟨hi, hreg⟩

theorem mem_handle_toggle_command_subscribed (s : MState) (n : String) (a : Bool) (i : Nat)
    (hi : i ∈ s.subscribed) (hreg : ∀ e ∈ s.registry, e.id ≠ i) :
    i ∈ (handle_toggle_command s n a).1.subscribed := by
  cases hf : s.registry.find? (fun e => e.name == some n) with
  | none => simpa [handle_toggle_command, hf] using hi
  | some e =>
    have he : e ∈ s.registry := List.mem_of_find?_eq_some hf
    cases a with
    | true =>
      simp only [handle_toggle_command, hf, if_pos rfl]
      exact mem_addEH.mpr (Or.inl hi)
    | false =>
      simp only [handle_toggle_command, hf, Bool.false_eq_true, if_false]
      exact mem_removeEH.mpr ⟨hi, fun hc => hreg e he hc.symm⟩

theorem handle_toggle_registry (s : MState) : (handle_toggle s).1.registry = s.registry := by
  cases hb : s.turn_on with
  | false => rw [handle_toggle_of_off s hb]; rfl
  | true => rw [handle_toggle_of_on s hb]; rfl

theorem handle_toggle_command_registry (s : MState) (n : String) (a : Bool) :
    (handle_toggle_command s n a).1.registry = s.registry := by
  cases hf : s.registry.find? (fun e => e.name == some n) <;>
    simp [handle_toggle_command, hf]

theorem handle_toggle_statuses_keys {s : MState} {k : String}
    (h : hasKey (handle_toggle s).1.statuses k = true) : hasKey s.statuses k = true := by
  cases hb : s.turn_on with
  | false =>
    rw [handle_toggle_of_off s hb] at h
    rw [register_handlers_false_statuses] at h
    exact h
  | true =>
    rw [handle_toggle_of_on s hb] at h
    rw [remove_handlers_false_statuses] at h
    exact h

theorem handle_toggle_command_statuses_keys {s : MState} {n : String} {a : Bool} {k : String}
    (h : hasKey (handle_toggle_command s n a).1.statuses k = true) :
    hasKey s.statuses k = true ∨ ∃ e ∈ s.registry, e.name = some k := by
  cases hf : s.registry.find? (fun e => e.name == some n) with
  | none =>
    rw [show (handle_toggle_command s n a).1 = s by simp [handle_toggle_command, hf]] at h
    exact Or.inl h
  | some e =>
    have he : e ∈ s.registry := List.mem_of_find?_eq_some hf
    have hst : (handle_toggle_command s n a).1.statuses = set_status s.statuses e.name a := by
      simp [handle_toggle_command, hf]
    rw [hst] at h
    rcases hasKey_set_status h with h1 | h2
    · exact Or.inl h1
    · exact Or.inr ⟨e, he, h2⟩

theorem controlIds_not_registry : ∀ i ∈ controlIds, ∀ e ∈ theRegistry, e.id ≠ i := by
  decide

theorem setup_controlInv (data : Option PRecord) : ControlInv (setup_handlers data) := by
  have hbase : ControlInv (register_handlers
      { registry := theRegistry, turn_on := true, statuses := [], subscribed := controlIds,
        writes := [] } true) := by
    refine ⟨rfl, ?_, ?_⟩
    · intro k hk
      rcases @hasKey_registerAux true theRegistry [] controlIds k hk with h1 | h2
      · simp [hasKey] at h1
      · exact h2
    · intro i hi
      exact (mem_registerAux_true theRegistry [] controlIds i).mpr (Or.inl hi)
  obtain ⟨hreg, hkeys, hsubs⟩ := hbase
  cases data with
  | none => exact ⟨hreg, hkeys, hsubs⟩
  | some d =>
    set t := register_handlers
      { registry := theRegistry, turn_on := true, statuses := [], subscribed := controlIds,
        writes := [] } true with ht
    refine ⟨?_, ?_, ?_⟩
    · show (update_statuses_from_store (update_turn_on_from_store t (d.turn_on.getD true))
        (d.statuses.getD [])).registry = theRegistry
      rw [show (update_statuses_from_store (update_turn_on_from_store t (d.turn_on.getD true))
          (d.statuses.getD [])).registry =
          (update_turn_on_from_store t (d.turn_on.getD true)).registry from rfl]
      rw [update_turn_on_registry]
      exact hreg
    · intro k hk
      apply hkeys
      have hk2 : hasKey (update_statuses_from_store (update_turn_on_from_store t
          (d.turn_on.getD true)) (d.statuses.getD [])).statuses k = true := hk
      have h1 : hasKey (update_statuses_from_store (update_turn_on_from_store t
          (d.turn_on.getD true)) (d.statuses.getD [])).statuses k =
          hasKey (update_turn_on_from_store t (d.turn_on.getD true)).statuses k :=
        hasKey_updStatusesAux _ _ _ _ k
      rw [h1, update_turn_on_statuses] at hk2
      exact hk2
    · intro i hi
      have hreg2 : ∀ e ∈ t.registry, e.id ≠ i := by
        rw [hreg]
        exact controlIds_not_registry i hi
      have h2 : i ∈ (update_turn_on_from_store t (d.turn_on.getD true)).subscribed :=
        mem_update_turn_on_subscribed t _ i (hsubs i hi) hreg2
      apply mem_updStatusesAux_of _ _ _ _ i h2
      rw [show (update_turn_on_from_store t (d.turn_on.getD true)).registry = t.registry from
        update_turn_on_registry t _]
      exact hreg2

theorem reachable_controlInv {s : MState} (h : Reachable s) : ControlInv s := by
  induction h with
  | init data => exact setup_controlInv data
  | @step s0 t hr hstep ih =>
    obtain ⟨hreg, hkeys, hsubs⟩ := ih
    cases hstep with
    | toggle =>
      refine ⟨by rw [handle_toggle_registry]; exact hreg, ?_, ?_⟩
      · intro k hk
        exact hkeys k (handle_toggle_statuses_keys hk)
      · intro i hi
        apply mem_handle_toggle_subscribed s0 i (hsubs i hi)
        rw [hreg]
        exact controlIds_not_registry i hi
    | toggleCmd n a =>
      refine ⟨by rw [handle_toggle_command_registry]; exact hreg, ?_, ?_⟩
      · intro k hk
        rcases handle_toggle_command_statuses_keys hk with h1 | h2
        · exact hkeys k h1
        · rw [hreg] at h2
          exact h2
      · intro i hi
        apply mem_handle_toggle_command_subscribed s0 n a i (hsubs i hi)
        rw [hreg]
        exact controlIds_not_registry i hi
    | statusCmd => exact ⟨hreg, hkeys, hsubs⟩
    | save uk => exact ⟨hreg, hkeys, hsubs⟩

/-- C10: in every reachable state, the four control commands (toggle/to,
status, stop_command/stop, start_command/start) are absent from the
handler registry and from the status map — so they are never detached by
a global off (their subscriptions persist), never listed by the status
command, and toggle_handler invoked with any of their names reports the
not-found outcome; in particular the toggle handler itself stays
subscribed, so the global toggle can always be switched back on. -/
theorem control_commands_isolated (s : MState) (h : Reachable s) :
    s.registry = theRegistry ∧
    (∀ cn ∈ controlNames, (∀ e ∈ s.registry, e.name ≠ some cn) ∧
      lookupStatus s.statuses cn = none ∧
      ∀ a : Bool, (handle_toggle_command s cn a).2.1 = ToggleReply.notFound) ∧
    (∀ i ∈ controlIds, i ∈ s.subscribed) := by
  obtain ⟨hreg, hkeys, hsubs⟩ := reachable_controlInv h
  have hnames : ∀ cn ∈ controlNames, ∀ e ∈ theRegistry, e.name ≠ some cn := by decide
  refine ⟨hreg, ?_, hsubs⟩
  intro cn hcn
  have hno : ∀ e ∈ s.registry, e.name ≠ some cn := by
    rw [hreg]
    exact hnames cn hcn
  refine ⟨hno, ?_, ?_⟩
  · cases hcase : lookupStatus s.statuses cn with
    | none => rfl
    | some w =>
      exfalso
      have hk : hasKey s.statuses cn = true := by
        rw [hasKey_eq_isSome, hcase]
        rfl
      obtain ⟨e, he, hn⟩ := hkeys cn hk
      exact hnames cn hcn e he hn
  · intro a
    have hf : s.registry.find? (fun e => e.name == some cn) = none :=
      List.find?_eq_none.mpr (fun e he => by simpa using hno e he)
    simp [handle_toggle_command, hf]

/-- C10, witness: the isolation facts at the cold-started state. -/
theorem control_commands_isolated_witness :
    Reachable (setup_handlers none) ∧
    ((setup_handlers none).registry = theRegistry ∧
    (∀ cn ∈ controlNames, (∀ e ∈ (setup_handlers none).registry, e.name ≠ some cn) ∧
      lookupStatus (setup_handlers none).statuses cn = none ∧
      ∀ a : Bool,
        (handle_toggle_command (setup_handlers none) cn a).2.1 = ToggleReply.notFound) ∧
    (∀ i ∈ controlIds, i ∈ (setup_handlers none).subscribed)) :=
  ⟨Reachable.init none, control_commands_isolated (setup_handlers none) (Reachable.init none)⟩

/-! ### Lemmas for the cold-start characterization (C2) -/

theorem mem_of_lookupStatus {sts : List (String × Bool)} {k : String} {v : Bool}
    (h : lookupStatus sts k = some v) : (k, v) ∈ sts := by
  induction sts with
  | nil => simp [lookupStatus] at h
  | cons p rest ih =>
    rw [lookupStatus_cons] at h
    by_cases hp : (p.1 == k) = true
    · rw [if_pos hp] at h
      have hpk : p = (k, v) := by
        obtain ⟨a, b⟩ := p
        have h1 : a = k := eq_of_beq hp
        have h2 : b = v := Option.some.inj h
        rw [h1, h2]
      rw [hpk]
      exact List.mem_cons_self _ _
    · rw [if_neg hp] at h
      exact List.mem_cons_of_mem _ (ih h)

theorem lookupStatus_eq_none_of_not_key {sts : List (String × Bool)} {k : String}
    (h : k ∉ sts.map Prod.fst) : lookupStatus sts k = none := by
  induction sts with
  | nil => rfl
  | cons p rest ih =>
    rw [List.map_cons, List.mem_cons] at h
    push_neg at h
    rw [lookupStatus_cons, if_neg (by simpa using fun hc => h.1 hc.symm)]
    exact ih h.2

theorem lookupStatus_of_mem_nodup {sts : List (String × Bool)} {k : String} {v : Bool}
    (hnd : (sts.map Prod.fst).Nodup) (hm : (k, v) ∈ sts) : lookupStatus sts k = some v := by
  induction sts with
  | nil => cases hm
  | cons p rest ih =>
    rw [List.map_cons, List.nodup_cons] at hnd
    rcases List.mem_cons.mp hm with h1 | h2
    · rw [← h1, lookupStatus_cons, if_pos (by simp)]
    · have hk : k ∈ rest.map Prod.fst :=
        List.mem_map.mpr ⟨(k, v), h2, rfl⟩
      have hpk : (p.1 == k) = false := by
        simpa using fun hc => hnd.1 (by rw [hc]; exact hk)
      rw [lookupStatus_cons, if_neg (by simp [hpk])]
      exact ih hnd.2 h2

theorem lastNamed_of_nodup {reg : List Entry} {e : Entry} {n : String}
    (hnd : (reg.filterMap Entry.name).Nodup) (he : e ∈ reg) (hn : e.name = some n) :
    lastNamed reg n = some e := by
  have hfilter : reg.filter (fun x => x.name == some n) = [e] := by
    induction reg with
    | nil => cases he
    | cons x rest ih =>
      rw [List.filterMap_cons] at hnd
      cases hx : x.name with
      | none =>
        rw [hx] at hnd
        have hxf : (x.name == some n) = false := by simp [hx]
        rw [List.filter_cons, hxf]
        simp only [Bool.false_eq_true, if_false]
        rcases List.mem_cons.mp he with h1 | h2
        · rw [← h1, hn] at hx
          cases hx
        · exact ih hnd h2
      | some m =>
        rw [hx] at hnd
        rw [List.nodup_cons] at hnd
        by_cases hmn : m = n
        · have hxn : x.name = some n := by rw [hx, hmn]
          have hnone : ∀ y ∈ rest, (y.name == some n) = false := by
            intro y hy
            by_cases hyn : (y.name == some n) = true
            · exfalso
              apply hnd.1
              rw [hmn]
              exact List.mem_filterMap.mpr ⟨y, hy, by simpa using hyn⟩
            · simpa using hyn
          have hxe : e = x := by
            rcases List.mem_cons.mp he with h1 | h2
            · exact h1
            · exfalso
              have := hnone e h2
              rw [hn] at this
              simp at this
          rw [List.filter_cons, if_pos (by simp [hxn])]
          rw [List.filter_eq_nil_iff.mpr (by
            intro y hy
            simp [hnone y hy]), hxe]
        · have hxf : (x.name == some n) = false := by simp [hx, hmn]
          rw [List.filter_cons, hxf]
          simp only [Bool.false_eq_true, if_false]
          rcases List.mem_cons.mp he with h1 | h2
          · exfalso
            rw [← h1, hn] at hx
            exact hmn (Option.some.inj hx).symm
          · exact ih hnd.2 h2
  rw [lastNamed, hfilter]
  rfl

theorem removesId_setEntry (reg : List Entry) (st : List (String × Bool)) (n : String)
    (v : Bool) (p : String × Bool) (i : Nat) :
    removesId reg (setEntry st n v) p i ↔ removesId reg st p i := by
  unfold removesId
  rw [hasKey_setEntry]

theorem mem_updStatusesAux_iff (reg : List Entry) (sts st : List (String × Bool))
    (subs : List Nat) (i : Nat) :
    i ∈ (updStatusesAux reg sts st subs).2 ↔
      i ∈ subs ∧ ∀ p ∈ sts, ¬ removesId reg st p i := by
  induction sts generalizing st subs with
  | nil => simp [updStatusesAux]
  | cons p rest ih =>
    obtain ⟨m, w⟩ := p
    rw [List.forall_mem_cons]
    by_cases hg : (hasKey st m && reg.any (fun e => e.name == some m)) = true
    · rw [updStatusesAux, if_pos hg, ih]
      have hrest : (∀ q ∈ rest, ¬ removesId reg (setEntry st m w) q i) ↔
          (∀ q ∈ rest, ¬ removesId reg st q i) := by
        constructor
        · exact fun hall q hq hc => hall q hq ((removesId_setEntry reg st m w q i).mpr hc)
        · exact fun hall q hq hc => hall q hq ((removesId_setEntry reg st m w q i).mp hc)
      rw [hrest]
      cases w with
      | true =>
        have hhead : ¬ removesId reg st (m, true) i := by
          rintro ⟨hc, -, -⟩
          simp at hc
        simp only [if_pos rfl]
        exact ⟨fun ⟨h1, h2⟩ => ⟨h1, hhead, h2⟩, fun ⟨h1, _, h2⟩ => ⟨h1, h2⟩⟩
      | false =>
        simp only [Bool.false_eq_true, if_false]
        cases hl : lastNamed reg m with
        | none =>
          have hhead : ¬ removesId reg st (m, false) i := by
            rintro ⟨-, -, e, he, -⟩
            rw [hl] at he
            cases he
          exact ⟨fun ⟨h1, h2⟩ => ⟨h1, hhead, h2⟩, fun ⟨h1, _, h2⟩ => ⟨h1, h2⟩⟩
        | some e0 =>
          have hhead : removesId reg st (m, false) i ↔ e0.id = i := by
            constructor
            · rintro ⟨-, -, e1, he1, hid⟩
              rw [hl] at he1
              cases he1
              exact hid
            · intro hid
              exact ⟨rfl, hg, e0, hl, hid⟩
          rw [mem_removeEH]
          constructor
          · rintro ⟨⟨h1, h2⟩, h3⟩
            exact ⟨h1, fun hc => h2 (hhead.mp hc).symm, h3⟩
          · rintro ⟨h1, h2, h3⟩
            exact ⟨⟨h1, fun hc => h2 (hhead.mpr hc.symm)⟩, h3⟩
    · rw [updStatusesAux, if_neg hg, ih]
      have hhead : ¬ removesId reg st (m, w) i := by
        rintro ⟨-, hc, -⟩
        exact hg hc
      exact ⟨fun ⟨h1, h2⟩ => ⟨h1, hhead, h2⟩, fun ⟨h1, _, h2⟩ => ⟨h1, h2⟩⟩

theorem updStatusesAux_lookup (reg : List Entry) (sts st : List (String × Bool))
    (subs : List Nat) (n : String) (hkeys : (sts.map Prod.fst).Nodup) :
    lookupStatus (updStatusesAux reg sts st subs).1 n =
      match lookupStatus sts n with
      | some v =>
        if (hasKey st n && reg.any (fun e => e.name == some n)) = true then some v
        else lookupStatus st n
      | none => lookupStatus st n := by
  induction sts generalizing st subs with
  | nil => rfl
  | cons p rest ih =>
    obtain ⟨m, w⟩ := p
    rw [List.map_cons, List.nodup_cons] at hkeys
    by_cases hmn : m = n
    · subst hmn
      have hsts : lookupStatus ((m, w) :: rest) m = some w := by
        rw [lookupStatus_cons, if_pos (by simp)]
      have hrest : lookupStatus rest m = none :=
        lookupStatus_eq_none_of_not_key hkeys.1
      rw [hsts]
      by_cases hg : (hasKey st m && reg.any (fun e => e.name == some m)) = true
      · rw [updStatusesAux, if_pos hg, ih _ _ hkeys.2, hrest]
        show lookupStatus (setEntry st m w) m =
          if (hasKey st m && reg.any (fun e => e.name == some m)) = true then some w
          else lookupStatus st m
        rw [if_pos hg]
        have hhk : hasKey st m = true := (Bool.and_eq_true_iff.mp hg).1
        exact lookupStatus_setEntry_self w hhk
      · rw [updStatusesAux, if_neg hg, ih _ _ hkeys.2, hrest]
        show lookupStatus st m =
          if (hasKey st m && reg.any (fun e => e.name == some m)) = true then some w
          else lookupStatus st m
        rw [if_neg hg]
    · have hsts : lookupStatus ((m, w) :: rest) n = lookupStatus rest n := by
        rw [lookupStatus_cons, if_neg (by simpa using fun hc => hmn hc)]
      rw [hsts]
      by_cases hg : (hasKey st m && reg.any (fun e => e.name == some m)) = true
      · rw [updStatusesAux, if_pos hg, ih _ _ hkeys.2]
        rw [hasKey_setEntry, lookupStatus_setEntry_other w (fun hc => hmn hc.symm)]
      · rw [updStatusesAux, if_neg hg, ih _ _ hkeys.2]

theorem update_turn_on_turn_on (s : MState) (v : Bool) :
    (update_turn_on_from_store s v).turn_on = v := by
  cases v <;> rfl

/-- C2: cold start first subscribes every registered handler and resets
every named handler's status to enabled; then, if a persisted record is
present, applies its global flag (unsubscribing everything when false)
and then each remembered per-handler status whose name is both a key of
the freshly reset status map and the name of a registry entry,
unsubscribing handlers remembered as disabled.  Consequently, under the
spec's standing assumption that named registry entries have distinct
names (and distinct ids, and real, nonempty names): the final global flag
is the persisted one (default true); the final status of a registered
name is its remembered value, defaulting to true, while persisted names
absent from the registry are ignored (their key is never added); and a
registry handler ends up subscribed exactly when the global flag is true
and its remembered status (default enabled) is true. -/
theorem cold_start_characterization (reg : List Entry) (preSubs : List Nat)
    (data : Option PRecord)
    (hNames : (reg.filterMap Entry.name).Nodup)
    (hIds : (reg.map Entry.id).Nodup)
    (hKeys : ((persistedStatuses data).map Prod.fst).Nodup)
    (hNE : ∀ e ∈ reg, e.name ≠ some "") :
    (initFrom reg preSubs data).turn_on = effTurnOn data ∧
    (∀ n : String, n ≠ "" →
      ((∃ e ∈ reg, e.name = some n) →
        lookupStatus (initFrom reg preSubs data).statuses n =
          some ((lookupStatus (persistedStatuses data) n).getD true)) ∧
      ((∀ e ∈ reg, e.name ≠ some n) →
        lookupStatus (initFrom reg preSubs data).statuses n = none)) ∧
    (∀ e ∈ reg, (e.id ∈ (initFrom reg preSubs data).subscribed ↔
      (effTurnOn data = true ∧ entryRemembered data e = true))) := by
  rcases data with - | d
  · have hinit : initFrom reg preSubs none =
        register_handlers
          { registry := reg, turn_on := true, statuses := [],
            subscribed := preSubs, writes := [] } true := rfl
    rw [hinit]
    set p1 := register_handlers
      { registry := reg, turn_on := true, statuses := [],
        subscribed := preSubs, writes := [] } true with hp1
    have hlook : ∀ n : String, n ≠ "" → lookupStatus p1.statuses n =
        (if reg.any (fun e => e.name == some n) = true then some true else none) := by
      intro n hn
      rw [hp1]
      show lookupStatus (registerAux true reg [] preSubs).1 n = _
      rw [registerAux_true_lookup reg [] preSubs hn]
      rfl
    refine ⟨rfl, ?_, ?_⟩
    · intro n hn
      constructor
      · rintro ⟨e, he, hne⟩
        have hany : reg.any (fun e => e.name == some n) = true :=
          List.any_eq_true.mpr ⟨e, he, by simp [hne]⟩
        rw [hlook n hn, if_pos hany]
        rfl
      · intro hall
        have hany : reg.any (fun e => e.name == some n) = false := by
          cases hc : reg.any (fun e => e.name == some n) with
          | false => rfl
          | true =>
            obtain ⟨e, he, hbe⟩ := List.any_eq_true.mp hc
            exact absurd (by simpa using hbe) (hall e he)
        rw [hlook n hn, if_neg (by simp [hany])]
    · intro e he
      have hRem : entryRemembered none e = true := by
        cases hname : e.name <;> simp [entryRemembered, hname, persistedStatuses, lookupStatus]
      constructor
      · intro _
        exact ⟨rfl, hRem⟩
      · intro _
        rw [hp1]
        show e.id ∈ (registerAux true reg [] preSubs).2
        exact (mem_registerAux_true reg [] preSubs e.id).mpr (Or.inr ⟨e, he, rfl⟩)
  · have hinit : initFrom reg preSubs (some d) =
        update_statuses_from_store (update_turn_on_from_store
          (register_handlers
            { registry := reg, turn_on := true, statuses := [],
              subscribed := preSubs, writes := [] } true) (d.turn_on.getD true))
          (d.statuses.getD []) := rfl
    rw [hinit]
    set p1 := register_handlers
      { registry := reg, turn_on := true, statuses := [],
        subscribed := preSubs, writes := [] } true with hp1
    set v := d.turn_on.getD true with hv
    set sts := d.statuses.getD [] with hsts
    have heff : effTurnOn (some d) = v := rfl
    set t1 := update_turn_on_from_store p1 v with ht1
    have ht1_st : t1.statuses = p1.statuses := update_turn_on_statuses p1 v
    have ht1_reg : t1.registry = reg := by
      rw [ht1, update_turn_on_registry]
      rfl
    have ht1_to : t1.turn_on = v := update_turn_on_turn_on p1 v
    have hp1look : ∀ n : String, n ≠ "" → lookupStatus p1.statuses n =
        (if reg.any (fun e => e.name == some n) = true then some true else none) := by
      intro n hn
      rw [hp1]
      show lookupStatus (registerAux true reg [] preSubs).1 n = _
      rw [registerAux_true_lookup reg [] preSubs hn]
      rfl
    have hlookfin : ∀ n : String,
        lookupStatus (update_statuses_from_store t1 sts).statuses n =
          match lookupStatus sts n with
          | some w =>
            if (hasKey t1.statuses n && t1.registry.any (fun e => e.name == some n)) = true
            then some w else lookupStatus t1.statuses n
          | none => lookupStatus t1.statuses n := by
      intro n
      exact updStatusesAux_lookup t1.registry sts t1.statuses t1.subscribed n hKeys
    refine ⟨?_, ?_, ?_⟩
    · show t1.turn_on = effTurnOn (some d)
      rw [ht1_to, heff]
    · intro n hn
      constructor
      · rintro ⟨e, he, hne⟩
        have hany : reg.any (fun e => e.name == some n) = true :=
          List.any_eq_true.mpr ⟨e, he, by simp [hne]⟩
        have hkey : hasKey p1.statuses n = true := by
          rw [hasKey_eq_isSome, hp1look n hn, if_pos hany]
          rfl
        have hguard : (hasKey t1.statuses n &&
            t1.registry.any (fun e => e.name == some n)) = true := by
          rw [ht1_st, ht1_reg, hkey, hany]
          rfl
        rw [hlookfin n]
        cases hc : lookupStatus sts n with
        | some w =>
          show (if (hasKey t1.statuses n && t1.registry.any (fun e => e.name == some n)) = true
            then some w else lookupStatus t1.statuses n) =
            some ((lookupStatus sts n).getD true)
          rw [if_pos hguard, hc]
          rfl
        | none =>
          show lookupStatus t1.statuses n = some ((lookupStatus sts n).getD true)
          rw [ht1_st, hp1look n hn, if_pos hany, hc]
          rfl
      · intro hall
        have hany : reg.any (fun e => e.name == some n) = false := by
          cases hc : reg.any (fun e => e.name == some n) with
          | false => rfl
          | true =>
            obtain ⟨e, he, hbe⟩ := List.any_eq_true.mp hc
            exact absurd (by simpa using hbe) (hall e he)
        have hkeyf : hasKey p1.statuses n = false := by
          rw [hasKey_eq_isSome, hp1look n hn, if_neg (by simp [hany])]
          rfl
        rw [hlookfin n]
        cases hc : lookupStatus sts n with
        | some w =>
          show (if (hasKey t1.statuses n && t1.registry.any (fun e => e.name == some n)) = true
            then some w else lookupStatus t1.statuses n) = none
          rw [if_neg (by rw [ht1_st, hkeyf]; simp)]
          rw [ht1_st, hp1look n hn, if_neg (by simp [hany])]
        | none =>
          show lookupStatus t1.statuses n = none
          rw [ht1_st, hp1look n hn, if_neg (by simp [hany])]
    · intro e he
      have hmemfin : e.id ∈ (update_statuses_from_store t1 sts).subscribed ↔
          e.id ∈ t1.subscribed ∧ ∀ p ∈ sts, ¬ removesId t1.registry t1.statuses p e.id :=
        mem_updStatusesAux_iff t1.registry sts t1.statuses t1.subscribed e.id
      rw [ht1_reg, ht1_st] at hmemfin
      cases hvb : v with
      | false =>
        have ht1v : t1 = remove_handlers { p1 with turn_on := false } false := by
          rw [ht1, hvb]
          rfl
        have hnot : e.id ∉ t1.subscribed := by
          rw [ht1v]
          intro hc
          exact ((mem_remove_handlers { p1 with turn_on := false } false e.id).mp hc).2 e he rfl
        constructor
        · intro hc
          exact absurd (hmemfin.mp hc).1 hnot
        · rintro ⟨heff2, -⟩
          rw [heff, hvb] at heff2
          cases heff2
      | true =>
        have ht1v : t1 = { p1 with turn_on := true } := by
          rw [ht1, hvb]
          rfl
        have hsubs_t1 : e.id ∈ t1.subscribed := by
          rw [ht1v]
          show e.id ∈ (registerAux true reg [] preSubs).2
          exact (mem_registerAux_true reg [] preSubs e.id).mpr (Or.inr ⟨e, he, rfl⟩)
        rw [hmemfin]
        cases hname : e.name with
        | none =>
          have hall : ∀ p ∈ sts, ¬ removesId reg p1.statuses p e.id := by
            rintro p hp ⟨-, -, e1, hl1, hid⟩
            obtain ⟨he1, hn1⟩ := lastNamed_mem hl1
            have he1e : e1 = e := List.inj_on_of_nodup_map hIds he1 he hid
            rw [he1e, hname] at hn1
            cases hn1
          have hRem : entryRemembered (some d) e = true := by
            simp [entryRemembered, hname]
          constructor
          · intro _
            exact ⟨by rw [heff, hvb], hRem⟩
          · intro _
            exact ⟨hsubs_t1, hall⟩
        | some n =>
          have hn : n ≠ "" := fun hc => hNE e he (by rw [hname, hc])
          have hany : reg.any (fun x => x.name == some n) = true :=
            List.any_eq_true.mpr ⟨e, he, by simp [hname]⟩
          have hkey : hasKey p1.statuses n = true := by
            rw [hasKey_eq_isSome, hp1look n hn, if_pos hany]
            rfl
          have hRem_eq : entryRemembered (some d) e = (lookupStatus sts n).getD true := by
            simp only [entryRemembered, hname]
            rfl
          constructor
          · rintro ⟨-, hall⟩
            refine ⟨by rw [heff, hvb], ?_⟩
            rw [hRem_eq]
            cases hc : lookupStatus sts n with
            | none => rfl
            | some w =>
              cases w with
              | true => rfl
              | false =>
                exfalso
                apply hall (n, false) (mem_of_lookupStatus hc)
                refine ⟨rfl, ?_, e, lastNamed_of_nodup hNames he hname, rfl⟩
                show (hasKey p1.statuses n && reg.any (fun e => e.name == some n)) = true
                rw [hkey, hany]
                rfl
          · rintro ⟨-, hrem⟩
            refine ⟨hsubs_t1, ?_⟩
            rintro p hp ⟨hp2, -, e1, hl1, hid⟩
            obtain ⟨he1, hn1⟩ := lastNamed_mem hl1
            have he1e : e1 = e := List.inj_on_of_nodup_map hIds he1 he hid
            rw [he1e, hname] at hn1
            have hp1n : p.1 = n := (Option.some.inj hn1).symm
            have hpeq : p = (n, false) := by
              obtain ⟨a, b⟩ := p
              have ha : a = n := hp1n
              have hb : b = false := hp2
              rw [ha, hb]
            have hpmem : (n, false) ∈ sts := by
              rw [← hpeq]
              exact hp
            have hlookn : lookupStatus sts n = some false :=
              lookupStatus_of_mem_nodup hKeys hpmem
            rw [hRem_eq, hlookn] at hrem
            simp at hrem

/-- C2, witness: a cold start of a three-entry registry (one unnamed)
with a persisted record that disables beta and mentions a ghost name not
in the registry. -/
theorem cold_start_characterization_witness :
    (([⟨0, none⟩, ⟨1, some ("alpha")⟩, ⟨2, some ("beta")⟩] :
        List Entry).filterMap Entry.name).Nodup ∧
    (([⟨0, none⟩, ⟨1, some ("alpha")⟩, ⟨2, some ("beta")⟩] :
        List Entry).map Entry.id).Nodup ∧
    ((persistedStatuses (some ⟨some true, some [(("beta"), false), (("ghost"), true)]⟩)).map
        Prod.fst).Nodup ∧
    (∀ e ∈ ([⟨0, none⟩, ⟨1, some ("alpha")⟩, ⟨2, some ("beta")⟩] : List Entry),
      e.name ≠ some "") ∧
    ((initFrom [⟨0, none⟩, ⟨1, some ("alpha")⟩, ⟨2, some ("beta")⟩] [9]
        (some ⟨some true, some [(("beta"), false), (("ghost"), true)]⟩)).turn_on =
      effTurnOn (some ⟨some true, some [(("beta"), false), (("ghost"), true)]⟩) ∧
    (∀ n : String, n ≠ "" →
      ((∃ e ∈ ([⟨0, none⟩, ⟨1, some ("alpha")⟩, ⟨2, some ("beta")⟩] : List Entry),
          e.name = some n) →
        lookupStatus (initFrom [⟨0, none⟩, ⟨1, some ("alpha")⟩, ⟨2, some ("beta")⟩] [9]
            (some ⟨some true, some [(("beta"), false), (("ghost"), true)]⟩)).statuses n =
          some ((lookupStatus (persistedStatuses
            (some ⟨some true, some [(("beta"), false), (("ghost"), true)]⟩)) n).getD true)) ∧
      ((∀ e ∈ ([⟨0, none⟩, ⟨1, some ("alpha")⟩, ⟨2, some ("beta")⟩] : List Entry),
          e.name ≠ some n) →
        lookupStatus (initFrom [⟨0, none⟩, ⟨1, some ("alpha")⟩, ⟨2, some ("beta")⟩] [9]
            (some ⟨some true, some [(("beta"), false), (("ghost"), true)]⟩)).statuses n =
          none)) ∧
    (∀ e ∈ ([⟨0, none⟩, ⟨1, some ("alpha")⟩, ⟨2, some ("beta")⟩] : List Entry),
      (e.id ∈ (initFrom [⟨0, none⟩, ⟨1, some ("alpha")⟩, ⟨2, some ("beta")⟩] [9]
          (some ⟨some true, some [(("beta"), false), (("ghost"), true)]⟩)).subscribed ↔
        (effTurnOn (some ⟨some true, some [(("beta"), false), (("ghost"), true)]⟩) = true ∧
          entryRemembered (some ⟨some true, some [(("beta"), false), (("ghost"), true)]⟩) e
            = true)))) :=
  ⟨by decide, by decide, by decide, by decide,
    cold_start_characterization
      [⟨0, none⟩, ⟨1, some ("alpha")⟩, ⟨2, some ("beta")⟩] [9]
      (some ⟨some true, some [(("beta"), false), (("ghost"), true)]⟩)
      (by decide) (by decide) (by decide) (by decide)⟩

/-! ### C9: the merge argument and tokenization -/

theorem pySplitAux_nonspace (t : List Char) : ∀ (cur rest : List Char),
    (∀ c ∈ t, isSpace c = false) →
    pySplitAux cur (t ++ rest) = pySplitAux (t.reverse ++ cur) rest := by
  induction t with
  | nil => intro cur rest _; rfl
  | cons c t' ih =>
    intro cur rest h
    have hc : isSpace c = false := h c (List.mem_cons_self c t')
    rw [List.cons_append, pySplitAux, if_neg (by simp [hc])]
    rw [ih (c :: cur) rest (fun x hx => h x (List.mem_cons_of_mem c hx))]
    rw [List.reverse_cons, List.append_assoc]
    rfl

theorem pySplitAux_space (cur l : List Char) :
    pySplitAux cur (' ' :: l) =
      if cur.isEmpty then pySplitAux [] l else cur.reverse :: pySplitAux [] l := by
  rw [pySplitAux, if_pos (by rfl)]

theorem pySplit_tokens_wf : ∀ (s cur : List Char), (∀ c ∈ cur, isSpace c = false) →
    ∀ t ∈ pySplitAux cur s, t ≠ [] ∧ ∀ c ∈ t, isSpace c = false := by
  intro s
  induction s with
  | nil =>
    intro cur hcur t ht
    rw [pySplitAux] at ht
    by_cases hc : cur.isEmpty = true
    · rw [if_pos hc] at ht
      cases ht
    · rw [if_neg hc] at ht
      rcases List.mem_singleton.mp ht with rfl
      constructor
      · intro hrev
        apply hc
        have : cur = [] := by simpa using congrArg List.reverse hrev
        rw [this]
        rfl
      · intro c hcmem
        exact hcur c (List.mem_reverse.mp hcmem)
  | cons c rest ih =>
    intro cur hcur t ht
    rw [pySplitAux] at ht
    by_cases hs : isSpace c = true
    · rw [if_pos hs] at ht
      by_cases hc : cur.isEmpty = true
      · rw [if_pos hc] at ht
        exact ih [] (by intro x hx; cases hx) t ht
      · rw [if_neg hc] at ht
        rcases List.mem_cons.mp ht with rfl | ht2
        · constructor
          · intro hrev
            apply hc
            have : cur = [] := by simpa using congrArg List.reverse hrev
            rw [this]
            rfl
          · intro x hx
            exact hcur x (List.mem_reverse.mp hx)
        · exact ih [] (by intro x hx; cases hx) t ht2
    · rw [if_neg hs] at ht
      refine ih (c :: cur) ?_ t ht
      intro x hx
      rcases List.mem_cons.mp hx with rfl | hx2
      · simpa using hs
      · exact hcur x hx2

theorem pySplit_of_token {t : List Char} (hne : t ≠ [])
    (hns : ∀ c ∈ t, isSpace c = false) : pySplit t = [t] := by
  have h1 : pySplitAux ([] : List Char) t = pySplitAux (t.reverse ++ []) [] := by
    conv_lhs => rw [show t = t ++ [] from (List.append_nil t).symm]
    exact pySplitAux_nonspace t [] [] hns
  rw [pySplit, h1, List.append_nil, pySplitAux]
  rw [if_neg (by simpa using fun hc => hne (by simpa using congrArg List.reverse hc))]
  rw [List.reverse_reverse]

theorem pySplit_mergeValue : ∀ (ts : List (List Char)),
    (∀ t ∈ ts, t ≠ [] ∧ ∀ c ∈ t, isSpace c = false) →
    pySplit (mergeValue ts) = ts := by
  intro ts
  induction ts with
  | nil => intro _; rfl
  | cons t rest ih =>
    intro h
    obtain ⟨hne, hns⟩ := h t (List.mem_cons_self t rest)
    cases rest with
    | nil => exact pySplit_of_token hne hns
    | cons u ts' =>
      rw [show mergeValue (t :: u :: ts') = t ++ (' ' :: mergeValue (u :: ts')) from rfl]
      rw [pySplit, pySplitAux_nonspace t [] (' ' :: mergeValue (u :: ts')) hns,
        List.append_nil]
      rw [pySplitAux_space]
      rw [if_neg (by simpa using fun hc => hne (by simpa using congrArg List.reverse hc))]
      rw [List.reverse_reverse]
      rw [show pySplitAux [] (mergeValue (u :: ts')) = pySplit (mergeValue (u :: ts')) from rfl]
      rw [ih (fun x hx => h x (List.mem_cons_of_mem t hx))]

/-- C9, counterexample: tokenization by str.split() in NewMessage.filter
erases the interior whitespace before any merge action runs, so the
merged value of the free-text remainder "2  +  2" is "2 + 2", not the
original text: the claimed preservation of runs of whitespace is false. -/
theorem merge_whitespace_counterexample :
    mergeValue (pySplit (("2  +  2").data)) = ("2 + 2").data ∧
    ¬ (mergeValue (pySplit (("2  +  2").data)) = ("2  +  2").data) := by
  constructor
  · decide
  · decide

/-- C9, amended: the merge argument's value is the remaining tokens of
the message joined by single spaces; it determines exactly the original
token sequence (splitting the merged value recovers the tokens), but
interior runs of whitespace collapse to single separators rather than
being preserved. -/
theorem split_merge_roundtrip (s : List Char) :
    pySplit (mergeValue (pySplit s)) = pySplit s :=
  pySplit_mergeValue (pySplit s) (pySplit_tokens_wf s [] (by intro c hc; cases hc))

/-! ### C8: the command matcher -/

theorem takeWhile_all_sat (p : Char → Bool) (l : List Char) : (l.takeWhile p).all p = true := by
  induction l with
  | nil => rfl
  | cons c rest ih =>
    rw [List.takeWhile_cons]
    by_cases h : p c = true
    · simp [h, ih]
    · simp [h]

theorem dropWhile_append_all {ws l : List Char} (h : ws.all isSpace = true) :
    (ws ++ l).dropWhile isSpace = l.dropWhile isSpace := by
  induction ws with
  | nil => rfl
  | cons c ws' ih =>
    rw [List.all_cons, Bool.and_eq_true_iff] at h
    rw [List.cons_append, List.dropWhile_cons, if_pos h.1]
    exact ih h.2

theorem lineEnd_iff (l : List Char) :
    lineEnd l = true ↔ ∃ A nl, l = A ++ nl ∧ noNL A = true ∧ (nl = [] ∨ nl = ['\n']) := by
  constructor
  · intro h
    rw [lineEnd] at h
    rcases Bool.or_eq_true_iff.mp h with h1 | h2
    · exact ⟨l, [], (List.append_nil l).symm, h1, Or.inl rfl⟩
    · obtain ⟨h2a, h2b⟩ := Bool.and_eq_true_iff.mp h2
      have hl : l.getLast? = some '\n' := by simpa using h2b
      have hnil : l ≠ [] := by
        intro hc
        rw [hc] at hl
        cases hl
      refine ⟨l.dropLast, ['\n'], ?_, h2a, Or.inr rfl⟩
      have hlast : l.getLast hnil = '\n' := by
        have heq := List.getLast?_eq_getLast_of_ne_nil hnil
        rw [heq] at hl
        exact Option.some.inj hl
      rw [← hlast]
      exact (List.dropLast_append_getLast hnil).symm
  · rintro ⟨A, nl, rfl, hA, hnl⟩
    rcases hnl with rfl | rfl
    · rw [lineEnd]
      apply Bool.or_eq_true_iff.mpr
      left
      rw [List.append_nil]
      exact hA
    · rw [lineEnd]
      apply Bool.or_eq_true_iff.mpr
      right
      apply Bool.and_eq_true_iff.mpr
      constructor
      · rw [List.dropLast_concat]
        exact hA
      · rw [List.getLast?_concat]
        rfl

theorem lineEnd_parts : ∀ (body nl : List Char), noNL body = true →
    (nl = [] ∨ nl = ['\n']) → lineEnd ((body ++ nl).dropWhile isSpace) = true := by
  intro body
  induction body with
  | nil =>
    intro nl _ hnl
    rcases hnl with rfl | rfl
    · decide
    · decide
  | cons c b' ih =>
    intro nl hbody hnl
    have hsplit := hbody
    rw [noNL, List.all_cons, Bool.and_eq_true_iff] at hsplit
    by_cases hs : isSpace c = true
    · rw [List.cons_append, List.dropWhile_cons, if_pos hs]
      exact ih nl hsplit.2 hnl
    · rw [List.cons_append, List.dropWhile_cons, if_neg hs]
      apply (lineEnd_iff _).mpr
      exact ⟨c :: b', nl, (List.cons_append c b' nl).symm, hbody, hnl⟩

theorem tailMatch_iff (suffix : List Char) :
    tailMatch suffix = true ↔
      (suffix = [] ∨ ∃ ws body nl, suffix = ws ++ body ++ nl ∧ ws ≠ [] ∧
        ws.all isSpace = true ∧ noNL body = true ∧ (nl = [] ∨ nl = ['\n'])) := by
  constructor
  · intro h
    rw [tailMatch] at h
    rcases Bool.or_eq_true_iff.mp h with h1 | h2
    · left
      cases suffix with
      | nil => rfl
      | cons a l => simp at h1
    · right
      obtain ⟨h2a, h2b⟩ := Bool.and_eq_true_iff.mp h2
      obtain ⟨A, nl, hdecomp, hA, hnl⟩ := (lineEnd_iff _).mp h2b
      refine ⟨suffix.takeWhile isSpace, A, nl, ?_, ?_, takeWhile_all_sat isSpace suffix,
        hA, hnl⟩
      · conv_lhs => rw [← List.takeWhile_append_dropWhile isSpace suffix]
        rw [hdecomp, List.append_assoc]
      · intro hc
        rw [hc] at h2a
        simp at h2a
  · rintro (rfl | ⟨ws, body, nl, rfl, hws, hall, hbody, hnl⟩)
    · rfl
    · rw [tailMatch]
      apply Bool.or_eq_true_iff.mpr
      right
      apply Bool.and_eq_true_iff.mpr
      constructor
      · cases ws with
        | nil => exact absurd rfl hws
        | cons c ws' =>
          have hc : isSpace c = true := by
            rw [List.all_cons, Bool.and_eq_true_iff] at hall
            exact hall.1
          rw [List.cons_append, List.cons_append, List.takeWhile_cons, if_pos hc]
          simp
      · rw [List.append_assoc, dropWhile_append_all hall]
        exact lineEnd_parts body nl hbody hnl

theorem emptyCmdMatch_iff (text : List Char) :
    emptyCmdMatch text = true ↔ ∃ p rest, text = p :: rest ∧ trigger p = true ∧
      ∃ ws body nl, rest = ws ++ body ++ nl ∧ ws.all isSpace = true ∧ noNL body = true ∧
        (nl = [] ∨ nl = ['\n']) := by
  constructor
  · intro h
    cases text with
    | nil => cases h
    | cons p rest =>
      have h2 : trigger p = true ∧ lineEnd (rest.dropWhile isSpace) = true := by
        simpa [emptyCmdMatch, Bool.and_eq_true] using h
      obtain ⟨A, nl, hdecomp, hA, hnl⟩ := (lineEnd_iff _).mp h2.2
      refine ⟨p, rest, rfl, h2.1, rest.takeWhile isSpace, A, nl, ?_,
        takeWhile_all_sat isSpace rest, hA, hnl⟩
      conv_lhs => rw [← List.takeWhile_append_dropWhile isSpace rest]
      rw [hdecomp, List.append_assoc]
  · rintro ⟨p, rest, rfl, htr, ws, body, nl, rfl, hall, hbody, hnl⟩
    show (trigger p && lineEnd ((ws ++ body ++ nl).dropWhile isSpace)) = true
    apply Bool.and_eq_true_iff.mpr
    refine ⟨htr, ?_⟩
    rw [List.append_assoc, dropWhile_append_all hall]
    exact lineEnd_parts body nl hbody hnl

theorem cmdMatch_iff (cmds : List String) (text : List Char)
    (hplain : ∀ c ∈ cmds, c.data ≠ [] ∧ ∀ ch ∈ c.data, isSpace ch = false) :
    cmdMatch cmds text = true ↔
      ∃ p ws c rest, text = p :: (ws ++ c.data ++ rest) ∧ trigger p = true ∧
        ws.all isSpace = true ∧ c ∈ cmds ∧
        (rest = [] ∨ ∃ ws2 body nl, rest = ws2 ++ body ++ nl ∧ ws2 ≠ [] ∧
          ws2.all isSpace = true ∧ noNL body = true ∧ (nl = [] ∨ nl = ['\n'])) := by
  constructor
  · intro h
    cases text with
    | nil => cases h
    | cons p tl =>
      have h2 : trigger p = true ∧ groupMatch cmds (tl.dropWhile isSpace) = true := by
        simpa [cmdMatch, Bool.and_eq_true] using h
      rw [groupMatch] at h2
      obtain ⟨c, hc, hcp⟩ := List.any_eq_true.mp h2.2
      obtain ⟨hpre, htail⟩ := Bool.and_eq_true_iff.mp hcp
      obtain ⟨rest, hrest⟩ : ∃ t, tl.dropWhile isSpace = c.data ++ t := by
        obtain ⟨t, ht⟩ := List.isPrefixOf_iff_prefix.mp hpre
        exact ⟨t, ht.symm⟩
      have hdrop : (tl.dropWhile isSpace).drop c.data.length = rest := by
        rw [hrest]
        exact List.drop_left c.data rest
      rw [hdrop] at htail
      refine ⟨p, tl.takeWhile isSpace, c, rest, ?_, h2.1, takeWhile_all_sat isSpace tl,
        hc, (tailMatch_iff rest).mp htail⟩
      have htl : tl = tl.takeWhile isSpace ++ c.data ++ rest := by
        conv_lhs => rw [← List.takeWhile_append_dropWhile isSpace tl]
        rw [hrest, List.append_assoc]
      rw [← htl]
  · rintro ⟨p, ws, c, rest, rfl, htr, hall, hc, hrest⟩
    show (trigger p && groupMatch cmds ((ws ++ c.data ++ rest).dropWhile isSpace)) = true
    apply Bool.and_eq_true_iff.mpr
    refine ⟨htr, ?_⟩
    obtain ⟨hcne, hcns⟩ := hplain c hc
    have hdw : (ws ++ c.data ++ rest).dropWhile isSpace = c.data ++ rest := by
      rw [List.append_assoc, dropWhile_append_all hall]
      cases hcd : c.data with
      | nil => exact absurd hcd hcne
      | cons c0 cs =>
        have hc0 : isSpace c0 = false :=
          hcns c0 (by rw [hcd]; exact List.mem_cons_self _ _)
        rw [List.cons_append, List.dropWhile_cons, if_neg (by simp [hc0])]
    rw [hdw, groupMatch]
    apply List.any_eq_true.mpr
    refine ⟨c, hc, ?_⟩
    apply Bool.and_eq_true_iff.mpr
    constructor
    · rw [List.isPrefixOf_iff_prefix]
      exact List.prefix_append c.data rest
    · rw [List.drop_left]
      exact (tailMatch_iff rest).mpr hrest

/-- C8, counterexample: the multi-line message ">to a\nb" has the shape
the claim accepts (trigger prefix, command token to, whitespace and
arbitrary trailing text), yet the compiled pattern rejects it, because
the dot of the pattern does not cross newlines and the dollar anchor only
matches at the end or before one final newline; for the same reason the
empty-cmd matcher rejects the trigger-prefixed text ">a\nb".  So the
claimed if-and-only-if characterization is false. -/
theorem trigger_matching_counterexample :
    (∃ p ws c rest, ((">to a\nb").data) = p :: (ws ++ c.data ++ rest) ∧ trigger p = true ∧
      ws.all isSpace = true ∧ c ∈ (["to"] : List String) ∧
      (rest = [] ∨ ∃ ws2 body, rest = ws2 ++ body ∧ ws2 ≠ [] ∧ ws2.all isSpace = true)) ∧
    cmdMatch ["to"] ((">to a\nb").data) = false ∧
    emptyCmdMatch ((">a\nb").data) = false :=
  ⟨⟨'>', [], ("to"), ((" a\nb").data), by decide, by decide, by decide, by decide,
      Or.inr ⟨[' '], (("a\nb").data), by decide, by decide, by decide⟩⟩,
    by decide, by decide⟩

/-- C8, amended: for a matcher built from a nonempty list of plain
command tokens, a message text matches exactly when it starts with a
trigger prefix, optional whitespace and one of the tokens, followed by
nothing, or by whitespace and then arbitrary single-line text — text
containing no newline except an optionally trailing one; the empty-cmd
matcher accepts exactly the trigger-prefixed texts whose remainder is
whitespace followed by such single-line text; and a message not starting
with a trigger prefix (or empty) never matches either matcher. -/
theorem trigger_matching_amended (cmds : List String) (text : List Char)
    (hne : cmds ≠ [])
    (hplain : ∀ c ∈ cmds, c.data ≠ [] ∧ ∀ ch ∈ c.data, isSpace ch = false) :
    (cmdMatch cmds text = true ↔
      ∃ p ws c rest, text = p :: (ws ++ c.data ++ rest) ∧ trigger p = true ∧
        ws.all isSpace = true ∧ c ∈ cmds ∧
        (rest = [] ∨ ∃ ws2 body nl, rest = ws2 ++ body ++ nl ∧ ws2 ≠ [] ∧
          ws2.all isSpace = true ∧ noNL body = true ∧ (nl = [] ∨ nl = ['\n']))) ∧
    (emptyCmdMatch text = true ↔ ∃ p rest, text = p :: rest ∧ trigger p = true ∧
      ∃ ws body nl, rest = ws ++ body ++ nl ∧ ws.all isSpace = true ∧ noNL body = true ∧
        (nl = [] ∨ nl = ['\n'])) ∧
    (∀ p rest, text = p :: rest → trigger p = false →
      cmdMatch cmds text = false ∧ emptyCmdMatch text = false) ∧
    (cmdMatch cmds [] = false ∧ emptyCmdMatch [] = false) := by
  refine ⟨cmdMatch_iff cmds text hplain, emptyCmdMatch_iff text, ?_, rfl, rfl⟩
  rintro p rest rfl htr
  constructor
  · show (trigger p && groupMatch cmds (rest.dropWhile isSpace)) = false
    rw [htr]
    rfl
  · show (trigger p && lineEnd (rest.dropWhile isSpace)) = false
    rw [htr]
    rfl

/-- C8, amended witness: the characterization applied to the matcher of
the to command and the message ">to  hi". -/
theorem trigger_matching_amended_witness :
    ((["to"] : List String) ≠ []) ∧
    (∀ c ∈ (["to"] : List String), c.data ≠ [] ∧ ∀ ch ∈ c.data, isSpace ch = false) ∧
    ((cmdMatch ["to"] ((">to  hi").data) = true ↔
      ∃ p ws c rest, ((">to  hi").data) = p :: (ws ++ c.data ++ rest) ∧ trigger p = true ∧
        ws.all isSpace = true ∧ c ∈ (["to"] : List String) ∧
        (rest = [] ∨ ∃ ws2 body nl, rest = ws2 ++ body ++ nl ∧ ws2 ≠ [] ∧
          ws2.all isSpace = true ∧ noNL body = true ∧ (nl = [] ∨ nl = ['\n']))) ∧
    (emptyCmdMatch ((">to  hi").data) = true ↔
      ∃ p rest, ((">to  hi").data) = p :: rest ∧ trigger p = true ∧
      ∃ ws body nl, rest = ws ++ body ++ nl ∧ ws.all isSpace = true ∧ noNL body = true ∧
        (nl = [] ∨ nl = ['\n'])) ∧
    (∀ p rest, ((">to  hi").data) = p :: rest → trigger p = false →
      cmdMatch ["to"] ((">to  hi").data) = false ∧
        emptyCmdMatch ((">to  hi").data) = false) ∧
    (cmdMatch ["to"] [] = false ∧ emptyCmdMatch [] = false)) :=
  ⟨by decide, by decide,
    trigger_matching_amended ["to"] ((">to  hi").data) (by decide) (by decide)⟩

end Userbot
